import Mathlib

/-!
Verification of the FilmBuff-AI query pipeline core: the response caches
(`QueryCache` in `Hierarchical_crew.py` and the bounded variant in `Crew.py`),
the rate limiter (`Gradio.py`), the intent classifier and delegation-plan
extraction (`Hierarchical_crew.py`), and the routing/retry policy of
`process_film_buff_query` (`Crew.py`).

Python strings are embedded as `String`, Python `dict` either as a finite map
(`String → Option _`) when order is irrelevant, or as an insertion-ordered
association list when the FIFO order matters (the bounded cache). Wall-clock
time is an abstract `Nat`. Fallible collaborator calls (crew kickoffs) are
`Except String String` values passed in as parameters.
-/

namespace FilmBuff

/-! ### Generic string helpers (Python's `in`, `str.find`) -/

/-- `beginsWith pat l` : `pat` is an initial segment of `l`. -/
def beginsWith : List Char → List Char → Bool
  | [], _ => true
  | _ :: _, [] => false
  | a :: as, b :: bs => a == b && beginsWith as bs

/-- `containsSub s pat` : Python's `pat in s` (substring containment). -/
def containsSubAux (pat : List Char) : List Char → Bool
  | [] => beginsWith pat []
  | l@(_ :: rest) => beginsWith pat l || containsSubAux pat rest

def containsSub (s pat : String) : Bool :=
  containsSubAux pat.data s.data

/-- Index of the first occurrence of `pat` in `l`, if any. -/
def findSub (pat : List Char) : List Char → Option Nat
  | [] => if beginsWith pat [] then some 0 else none
  | l@(_ :: rest) =>
    if beginsWith pat l then some 0 else (findSub pat rest).map Nat.succ

/-- Python `str.lower()` (ASCII case folding; every string the claims involve
is cased only in ASCII). List-based so the kernel can evaluate it. -/
def lowerStr (s : String) : String := String.mk (s.data.map Char.toLower)

/-- Python `str.upper()` (ASCII). -/
def upperStr (s : String) : String := String.mk (s.data.map Char.toUpper)

/-- Python `str.strip()`: drop leading and trailing whitespace. -/
def trimList (l : List Char) : List Char :=
  ((l.dropWhile Char.isWhitespace).reverse.dropWhile Char.isWhitespace).reverse

def trimStr (s : String) : String := String.mk (trimList s.data)

/-- Python `s[:n]`. -/
def takeStr (s : String) (n : Nat) : String := String.mk (s.data.take n)

/-- Python `str.replace(old, new)`: non-overlapping, left to right. The fuel
argument (instantiated with the string length, an upper bound on the number of
steps) keeps the recursion structural. -/
def replaceSubFuel (pat rep : List Char) : Nat → List Char → List Char
  | 0, l => l
  | _ + 1, [] => []
  | fuel + 1, c :: rest =>
    if !pat.isEmpty && beginsWith pat (c :: rest) then
      rep ++ replaceSubFuel pat rep fuel ((c :: rest).drop pat.length)
    else
      c :: replaceSubFuel pat rep fuel rest

def replaceSub (s pat rep : String) : String :=
  String.mk (replaceSubFuel pat.data rep.data s.data.length s.data)

/-! ### `Hierarchical_crew.py` — disk-backed `QueryCache`

The cache maps an MD5 fingerprint of the normalized query to
`(value, timestamp)`. MD5 is a fixed function of the normalized string, so the
map is embedded with the normalized string itself as the key (equal normalized
queries collide on the key exactly as equal MD5 inputs do). -/

namespace HCache

/-- `get_query_hash`'s normalization: `query.lower().strip()`. -/
def normalize (q : String) : String := trimStr (lowerStr q)

/-- The in-memory `self.cache` dict: fingerprint ↦ (value, timestamp). -/
def Cache := String → Option (String × Nat)

def empty : Cache := fun _ => none

/-- `QueryCache.get`: returns the stored value whenever the fingerprint is
present — the timestamp is bound but never consulted. -/
def get (c : Cache) (q : String) : Option String :=
  (c (normalize q)).map Prod.fst

/-- `QueryCache.set`: overwrites the entry with the current timestamp.
(`save_cache` persists the very same table; persistence is the identity on the
in-memory state.) -/
def set (c : Cache) (q r : String) (now : Nat) : Cache :=
  fun k => if k = normalize q then some (r, now) else c k

/-- `QueryCache._clean_expired`, run from `load_cache`: deletes every entry
with `now - timestamp > timedelta(days=expiry_days)`. Time is counted in
days. -/
def clean_expired (c : Cache) (now expiry_days : Nat) : Cache :=
  fun k =>
    match c k with
    | some (v, ts) => if now - ts > expiry_days then none else some (v, ts)
    | none => none

end HCache

/-! ### `Crew.py` — bounded in-memory `QueryCache`

`self.cache` is a Python dict, so it preserves insertion order; `set` pops
`next(iter(self.cache))` (the first-inserted key) when at capacity, then
dict-assigns, which overwrites in place when the key already exists. The dict
is embedded as an insertion-ordered association list with unique keys. -/

/-- Python dict assignment `d[k] = v`: overwrite in place if `k` is present
(keeping its position), else append at the end. -/
def assocSet : List (String × String) → String → String → List (String × String)
  | [], k, v => [(k, v)]
  | (k', v') :: rest, k, v =>
    if k' == k then (k, v) :: rest else (k', v') :: assocSet rest k v

structure CrewCache where
  entries : List (String × String)
  max_size : Nat

namespace CrewCache

def empty (max_size : Nat) : CrewCache := ⟨[], max_size⟩

/-- `QueryCache.get`: `self.cache.get(key)`. -/
def get (c : CrewCache) (k : String) : Option String :=
  (c.entries.find? (fun p => p.1 == k)).map Prod.snd

/-- `QueryCache.set`: pop the first-inserted entry when
`len(self.cache) >= self.max_size`, then assign `self.cache[key] = value`. -/
def set (c : CrewCache) (k v : String) : CrewCache :=
  let entries :=
    if c.max_size ≤ c.entries.length then c.entries.tail else c.entries
  { c with entries := assocSet entries k v }

/-- Successive `set` calls, first list element inserted first. -/
def setAll (c : CrewCache) (l : List (String × String)) : CrewCache :=
  l.foldl (fun c p => set c p.1 p.2) c

end CrewCache

/-! ### `Hierarchical_crew.py` — `classify_query_intent` -/

/-- `classify_query_intent(query) -> (query_type, required_agents)`. The
Python builds `required_agents` by successive `append`s inside an
`if/elif` chain; the chain is rendered as nested conditionals producing the
same pair, followed by the final `complex`-with-no-agents safety net. -/
def classify_query_intent (query : String) : String × List String :=
  let query_lower := lowerStr query
  let trending_patterns := ["em alta", "tendência", "trending", "popular",
    "melhores filmes", "novidades"]
  let search_patterns := ["encontre", "busque", "procure", "pesquise", "lista de"]
  let detail_patterns := ["detalhes", "informações", "sobre o filme",
    "sobre a série", "sinopse", "elenco", "quando foi lançado"]
  let recommendation_patterns := ["recomende", "similar", "parecido", "como",
    "do mesmo estilo", "do mesmo gênero"]
  let person_patterns := ["ator", "atriz", "diretor", "quem", "personagem",
    "artista", "elenco"]
  let specific_title := ["star wars", "vingadores", "harry potter",
    "senhor dos anéis", "game of thrones"].any (fun t => containsSub query_lower t)
  let result : String × List String :=
    if trending_patterns.any (fun p => containsSub query_lower p) then
      ("trending", [])
    else if search_patterns.any (fun p => containsSub query_lower p)
        && !specific_title then
      ("search", [])
    else if detail_patterns.any (fun p => containsSub query_lower p)
        || specific_title then
      ("complex",
        if recommendation_patterns.any (fun p => containsSub query_lower p) then
          ["details_agent", "recommendation_agent"]
        else
          ["details_agent"])
    else if recommendation_patterns.any (fun p => containsSub query_lower p) then
      ("complex", ["recommendation_agent"])
    else if person_patterns.any (fun p => containsSub query_lower p) then
      ("complex", ["people_agent"])
    else
      ("complex", ["research_agent"])
  if result.1 = "complex" ∧ result.2 = [] then ("complex", ["research_agent"])
  else result

/-! ### `Hierarchical_crew.py` — delegation-plan extraction and fallback -/

/-- The four capability headers of the regex alternation, lower-cased (the
regex is compiled with `re.IGNORECASE`). -/
def agentHeaders : List (List Char) :=
  ["research agent:".data, "details agent:".data,
   "recommendation agent:".data, "people agent:".data]

/-- Index of the first position where one of `headers` starts, if any. -/
def findAnyHeader (headers : List (List Char)) : List Char → Option Nat
  | [] => if headers.any (fun h => beginsWith h []) then some 0 else none
  | l@(_ :: rest) =>
    if headers.any (fun h => beginsWith h l) then some 0
    else (findAnyHeader headers rest).map Nat.succ

/-- The regex search of `process_optimized_query`:
`f"{agent_name.replace('_agent','').upper()} AGENT:(.*?)(?:RESEARCH AGENT:|DETAILS AGENT:|RECOMMENDATION AGENT:|PEOPLE AGENT:|$)"`
with `re.DOTALL | re.IGNORECASE`. The lazy group captures from right after the
leftmost header occurrence up to the earliest following header (or the end of
the plan); the extracted instructions are the captured group `.strip()`ped. -/
def extract_instructions (delegation_plan agent_name : String) : Option String :=
  let header := lowerStr (upperStr (replaceSub agent_name "_agent" "") ++ " AGENT:")
  let plan := (lowerStr delegation_plan).data
  match findSub header.data plan with
  | none => none
  | some i =>
    let start := i + header.length
    let rest := plan.drop start
    let stop := (findAnyHeader agentHeaders rest).getD rest.length
    some (trimStr (String.mk (rest.take stop)))

/-- `create_optimized_tasks`' truncation of instructions
(`max_instructions_length = 300`). -/
def truncateInstructions (instructions : String) : String :=
  if instructions.length > 300 then takeStr instructions 300 ++ "..." else instructions

/-- The fallback instruction of `process_optimized_query`:
`f"Forneça informações sobre '{query}'"`. -/
def defaultInstruction (query : String) : String :=
  "Forneça informações sobre '" ++ query ++ "'"

/-- The task-construction loop of `process_optimized_query` (steps 2 and the
fallback): one task per required agent whose section was extracted, and the
default-instruction tasks only when `tasks` ended up empty. A task is embedded
as `(agent_name, truncated instructions)`. -/
def buildTasks (delegation_plan : String) (required_agents : List String)
    (query : String) : List (String × String) :=
  let tasks := required_agents.filterMap fun agent_name =>
    (extract_instructions delegation_plan agent_name).map fun instructions =>
      (agent_name, truncateInstructions instructions)
  if tasks.isEmpty then
    required_agents.map fun agent_name =>
      (agent_name, truncateInstructions (defaultInstruction query))
  else tasks

/-! ### `Gradio.py` — `RateLimiter` -/

structure RateLimiter where
  max_calls : Nat
  period : Nat
  calls : List Nat

namespace RateLimiter

/-- `can_proceed`: filter out timestamps with `now - t >= period`, then admit
(appending `now`) iff the remaining count is below `max_calls`. The mutex only
serializes invocations; one invocation is this pure state transformer. -/
def can_proceed (rl : RateLimiter) (now : Nat) : Bool × RateLimiter :=
  let calls := rl.calls.filter (fun t => now - t < rl.period)
  if calls.length < rl.max_calls then
    (true, { rl with calls := calls ++ [now] })
  else
    (false, { rl with calls := calls })

end RateLimiter

/-! ### `Crew.py` — `process_film_buff_query`

The crew kickoffs are opaque fallible collaborators: the manager analysis is
an `Except String String`, and the specialist / retry dispatches are functions
from the chosen agent to `Except String String` (the `query` is fixed
throughout one call). An `Except.error e` is a Python exception with message
`e`, caught by the top-level `except Exception`. -/

inductive TargetAgent
  | information_agent
  | trends_agent
  | recommendation_agent
deriving DecidableEq, Repr

/-- The agent-selection chain of `process_film_buff_query` (lines 82–134):
substring checks on the lower-cased manager analysis, then the context
fallback on the query text. -/
def determineTarget (manager_analysis query : String) : TargetAgent :=
  let a := lowerStr manager_analysis
  if ["information_agent", "information agent", "movie info",
      "film information"].any (fun t => containsSub a t) then
    .information_agent
  else if ["trends_agent", "trends agent", "trending"].any
      (fun t => containsSub a t) then
    .trends_agent
  else if ["recommendation_agent", "recommendation agent",
      "recommendations"].any (fun t => containsSub a t) then
    .recommendation_agent
  else if containsSub (lowerStr query) "information"
      || containsSub (lowerStr query) "details"
      || containsSub (lowerStr query) "about" then
    .information_agent
  else
    .recommendation_agent

/-- Step 3 of `process_film_buff_query` (lines 140–171): if the trimmed
specialist result is shorter than 50 characters, retry once — but only for
`trends_agent` and `information_agent`; the improved result replaces the
original only when its trimmed length exceeds 50. -/
def applyRetryPolicy (target : TargetAgent) (specialist_result : String)
    (retry : TargetAgent → Except String String) : Except String String :=
  if (trimStr specialist_result).length < 50 then
    match target with
    | .trends_agent => do
      let improved ← retry .trends_agent
      pure (if (trimStr improved).length > 50 then improved else specialist_result)
    | .information_agent => do
      let improved ← retry .information_agent
      pure (if (trimStr improved).length > 50 then improved else specialist_result)
    | .recommendation_agent => pure specialist_result
  else
    pure specialist_result

/-- The error template returned by the `except` block, as literal text around
the interpolated query and error message. -/
def errorResponseHead : String :=
  "# Sorry, an error occurred processing your query\n\nCould not process: \""

def errorResponseMid : String := "\"\n\nError: "

def errorResponseTail : String :=
  "\n\nPlease try:\n1. Rephrasing your question\n2. Being more specific about movie or TV show titles\n3. Using simpler queries\n\nThank you for your understanding!\n"

def errorResponse (query e : String) : String :=
  errorResponseHead ++ query ++ errorResponseMid ++ e ++ errorResponseTail

/-- The body of the `try` block: manager analysis, target selection,
specialist dispatch, retry policy. -/
def processBody (manager : Except String String)
    (dispatch retry : TargetAgent → Except String String)
    (query : String) : Except String String := do
  let manager_analysis ← manager
  let target := determineTarget manager_analysis query
  let specialist_result ← dispatch target
  applyRetryPolicy target specialist_result retry

/-- `process_film_buff_query`: cache check first (Python truthiness — an empty
cached string is treated as a miss), then the guarded body; on success the
result is cached and returned, on exception the error template is returned
and the cache is left untouched. -/
def process_film_buff_query (manager : Except String String)
    (dispatch retry : TargetAgent → Except String String)
    (cache : CrewCache) (query : String) : String × CrewCache :=
  let run : Unit → String × CrewCache := fun _ =>
    match processBody manager dispatch retry query with
    | .ok specialist_result =>
      (specialist_result, cache.set query specialist_result)
    | .error e => (errorResponse query e, cache)
  match cache.get query with
  | some cached_result => if cached_result == "" then run () else (cached_result, cache)
  | none => run ()

/-! ## Association-list lemmas for the bounded cache -/

theorem find?_eq_none_of_not_mem_keys {e : List (String × String)} {k : String}
    (h : k ∉ e.map Prod.fst) : e.find? (fun p => p.1 == k) = none := by
  rw [List.find?_eq_none]
  intro p hp
  simp only [beq_iff_eq]
  intro hk
  exact h (List.mem_map.mpr ⟨p, hp, hk⟩)

theorem find?_eq_some_of_nodup {e : List (String × String)} {k v : String}
    (hnd : (e.map Prod.fst).Nodup) (hmem : (k, v) ∈ e) :
    e.find? (fun p => p.1 == k) = some (k, v) := by
  induction e with
  | nil => cases hmem
  | cons p rest ih =>
    rw [List.map_cons, List.nodup_cons] at hnd
    rcases List.mem_cons.mp hmem with hp | hp
    · subst hp
      simp [List.find?]
    · have hne : ¬p.1 = k := fun hk =>
        hnd.1 (hk ▸ List.mem_map.mpr ⟨(k, v), hp, rfl⟩)
      simp only [List.find?, show (p.1 == k) = false by simpa using hne]
      exact ih hnd.2 hp

theorem assocSet_of_not_mem {e : List (String × String)} {k : String} (v : String)
    (h : k ∉ e.map Prod.fst) : assocSet e k v = e ++ [(k, v)] := by
  induction e with
  | nil => rfl
  | cons p rest ih =>
    rw [List.map_cons, List.mem_cons] at h
    push_neg at h
    have hne : ¬p.1 = k := fun hk => h.1 hk.symm
    simp only [assocSet, show (p.1 == k) = false by simpa using hne, if_neg,
      Bool.false_eq_true, not_false_iff, List.cons_append, List.cons.injEq, true_and]
    exact ih h.2

theorem assocSet_length_le (e : List (String × String)) (k v : String) :
    (assocSet e k v).length ≤ e.length + 1 := by
  induction e with
  | nil => simp [assocSet]
  | cons p rest ih =>
    by_cases hp : p.1 = k
    · simp [assocSet, hp]
    · simp only [assocSet, show (p.1 == k) = false by simpa using hp,
        Bool.false_eq_true, if_false, List.length_cons]
      omega

theorem assocSet_length_of_mem {e : List (String × String)} {k : String} (v : String)
    (h : k ∈ e.map Prod.fst) : (assocSet e k v).length = e.length := by
  induction e with
  | nil => cases h
  | cons p rest ih =>
    by_cases hp : p.1 = k
    · simp [assocSet, hp]
    · rw [List.map_cons, List.mem_cons] at h
      rcases h with h | h
      · exact absurd h.symm hp
      · simp only [assocSet, show (p.1 == k) = false by simpa using hp,
          Bool.false_eq_true, if_false, List.length_cons, ih h]

theorem mem_keys_of_mem_keys_assocSet {e : List (String × String)} {k v x : String}
    (h : x ∈ (assocSet e k v).map Prod.fst) : x ∈ e.map Prod.fst ∨ x = k := by
  induction e with
  | nil =>
    simp [assocSet] at h
    exact Or.inr h
  | cons p rest ih =>
    by_cases hp : p.1 = k
    · simp only [assocSet, show (p.1 == k) = true by simpa using hp, if_true,
        List.map_cons, List.mem_cons] at h
      rcases h with h | h
      · exact Or.inr h
      · exact Or.inl (List.mem_cons.mpr (Or.inr h))
    · simp only [assocSet, show (p.1 == k) = false by simpa using hp,
        Bool.false_eq_true, if_false, List.map_cons, List.mem_cons] at h
      rcases h with h | h
      · exact Or.inl (List.mem_cons.mpr (Or.inl h))
      · rcases ih h with h' | h'
        · exact Or.inl (List.mem_cons.mpr (Or.inr h'))
        · exact Or.inr h'

theorem find?_assocSet_self (e : List (String × String)) (k v : String) :
    (assocSet e k v).find? (fun p => p.1 == k) = some (k, v) := by
  induction e with
  | nil => simp [assocSet, List.find?]
  | cons p rest ih =>
    by_cases hp : p.1 = k
    · simp [assocSet, hp, List.find?]
    · simp only [assocSet, show (p.1 == k) = false by simpa using hp,
        Bool.false_eq_true, if_false, List.find?, ih]

/-- Filling phase of the bounded cache: starting from entries `e`, inserting
fresh keys until one past capacity evicts exactly the first-inserted entry. -/
theorem CrewCache.setAll_fill (l : List (String × String)) :
    ∀ e : List (String × String), ∀ M : Nat,
    ((e ++ l).map Prod.fst).Nodup → e.length + l.length = M + 1 →
    e.length ≤ M → 1 ≤ M →
    CrewCache.setAll ⟨e, M⟩ l = ⟨(e ++ l).tail, M⟩ := by
  induction l with
  | nil =>
    intro e M _ hlen hle _
    simp at hlen
    omega
  | cons x l' ih =>
    intro e M hnd hlen hle hM
    have hx_fresh : x.1 ∉ e.map Prod.fst := by
      intro hmem
      rw [List.map_append] at hnd
      exact (List.disjoint_of_nodup_append hnd) hmem (by simp)
    rw [List.length_cons] at hlen
    by_cases hfull : M ≤ e.length
    · have heM : e.length = M := le_antisymm hle hfull
      have hl0 : l' = [] := List.length_eq_zero.mp (by omega)
      subst hl0
      obtain ⟨e0, erest, rfl⟩ : ∃ e0 erest, e = e0 :: erest := by
        cases e with
        | nil => rw [List.length_nil] at heM; omega
        | cons e0 erest => exact ⟨e0, erest, rfl⟩
      have hx_tail : x.1 ∉ erest.map Prod.fst := by
        intro hmem
        exact hx_fresh (List.mem_cons.mpr (Or.inr hmem))
      simp only [CrewCache.setAll, List.foldl_cons, List.foldl_nil]
      simp only [CrewCache.set, hfull, if_true, List.tail_cons]
      rw [assocSet_of_not_mem _ hx_tail]
      rfl
    · push_neg at hfull
      have hstep : CrewCache.set ⟨e, M⟩ x.1 x.2 = ⟨e ++ [x], M⟩ := by
        simp only [CrewCache.set, Nat.not_le.mpr hfull, if_false]
        rw [assocSet_of_not_mem _ hx_fresh]
      have hrec := ih (e ++ [x]) M (by simpa using hnd)
        (by rw [List.length_append]; simp only [List.length_singleton]; omega)
        (by simp; omega) hM
      simp only [CrewCache.setAll, List.foldl_cons] at hrec ⊢
      rw [hstep, hrec, List.append_assoc, List.singleton_append]

/-! ## Claim theorems -/

/-- C1, counterexample: the claim says an entry whose age exceeds the expiry
window is invisible to every lookup regardless of when the cache was last
loaded — but `QueryCache.get` never consults the stored timestamp. An entry
stored at day 0 with the default 7-day expiry is still returned by `get`
even though (at day 100) its age exceeds the window. -/
theorem C1_counterexample :
    HCache.get (HCache.set HCache.empty "q" "r" 0) "q" = some "r" ∧ 7 < 100 - 0 := by
  constructor
  · simp [HCache.get, HCache.set]
  · norm_num

/-- C1, amended: expiry is enforced only by `_clean_expired` (run from
`load_cache`), not at lookup time. A stored entry is returned by `get`
regardless of its age; after a load at time `now`, the entry is gone iff its
age at `now` exceeded the expiry window. -/
theorem C1_expiry_only_at_load (c : HCache.Cache) (q v : String)
    (ts now expiry : Nat) (h : c (HCache.normalize q) = some (v, ts)) :
    HCache.get c q = some v ∧
    (now - ts > expiry → HCache.get (HCache.clean_expired c now expiry) q = none) ∧
    (¬ now - ts > expiry →
      HCache.get (HCache.clean_expired c now expiry) q = some v) := by
  refine ⟨?_, ?_, ?_⟩
  · simp [HCache.get, h]
  · intro hexp
    simp [HCache.get, HCache.clean_expired, h, hexp]
  · intro hexp
    simp [HCache.get, HCache.clean_expired, h, hexp]

theorem C1_witness :
    HCache.get (HCache.set HCache.empty "q" "r" 0) "q" = some "r" ∧
    HCache.get
        (HCache.clean_expired (HCache.set HCache.empty "q" "r" 0) 100 7) "q"
      = none := by
  have h := C1_expiry_only_at_load (HCache.set HCache.empty "q" "r" 0)
    "q" "r" 0 100 7 (by simp [HCache.set])
  exact ⟨h.1, h.2.1 (by norm_num)⟩

/-- C6, counterexample: the claim extends the normalization round trip to the
bounded-size cache of `Crew.py`, but that cache keys entries on the raw query
string (`process_film_buff_query` calls `get`/`set` with `query` itself, and
`QueryCache.get` is a plain `dict.get`): a lookup differing only in case
misses. -/
theorem C6_counterexample :
    CrewCache.get
        (CrewCache.set (CrewCache.empty 100) "Interstellar" "resp")
        "interstellar" = none := by decide

/-- C6, amended: the store/lookup round trip with case/whitespace
normalization holds for the disk-backed cache of `Hierarchical_crew.py`
(whose key is a fingerprint of `query.lower().strip()`); the bounded cache of
`Crew.py` round-trips only on the exact query string. -/
theorem C6_roundtrip (c : HCache.Cache) (q q' r : String) (now : Nat)
    (h : HCache.normalize q' = HCache.normalize q) :
    HCache.get (HCache.set c q r now) q' = some r ∧
    ∀ (bc : CrewCache) (k v : String),
      CrewCache.get (CrewCache.set bc k v) k = some v := by
  constructor
  · simp [HCache.get, HCache.set, h]
  · intro bc k v
    simp [CrewCache.get, CrewCache.set, find?_assocSet_self]

theorem C6_witness :
    HCache.get (HCache.set HCache.empty "Interstellar" "resp" 0)
        "  Interstellar " = some "resp" ∧
    HCache.get (HCache.set HCache.empty "Interstellar" "resp" 0)
        "interstellar" = some "resp" ∧
    CrewCache.get (CrewCache.set (CrewCache.empty 100) "Interstellar" "resp")
        "Interstellar" = some "resp" :=
  ⟨(C6_roundtrip HCache.empty "Interstellar" "  Interstellar " "resp" 0 (by decide)).1,
   (C6_roundtrip HCache.empty "Interstellar" "interstellar" "resp" 0 (by decide)).1,
   (C6_roundtrip HCache.empty "Interstellar" "Interstellar" "resp" 0 rfl).2
     (CrewCache.empty 100) "Interstellar" "resp"⟩

/-- C9: bounded-size FIFO eviction. Inserting `N + 1` distinct keys into an
initially empty cache with `max_size = N` leaves exactly the last `N` keys
lookupable: the first-inserted key is evicted, every other key maps to its
value, the table holds `N` entries, and one `set` step never grows a table of
at most `N` entries beyond `N`. -/
theorem C9_fifo_eviction (N : Nat) (p : String × String)
    (rest : List (String × String)) (hN : 1 ≤ N) (hlen : rest.length = N)
    (hnd : ((p :: rest).map Prod.fst).Nodup) :
    (CrewCache.setAll (CrewCache.empty N) (p :: rest)).get p.1 = none ∧
    (∀ q ∈ rest,
      (CrewCache.setAll (CrewCache.empty N) (p :: rest)).get q.1 = some q.2) ∧
    (CrewCache.setAll (CrewCache.empty N) (p :: rest)).entries.length = N ∧
    (∀ (en : List (String × String)) (k v : String), en.length ≤ N →
      (CrewCache.set ⟨en, N⟩ k v).entries.length ≤ N) := by
  have hfill := CrewCache.setAll_fill (p :: rest) [] N (by simpa using hnd)
    (by simp [hlen]) (by simp) hN
  rw [List.nil_append, List.tail_cons] at hfill
  have hkeys : (rest.map Prod.fst).Nodup ∧ p.1 ∉ rest.map Prod.fst := by
    rw [List.map_cons, List.nodup_cons] at hnd
    exact ⟨hnd.2, hnd.1⟩
  refine ⟨?_, ?_, ?_, ?_⟩
  · show (CrewCache.setAll ⟨[], N⟩ (p :: rest)).get p.1 = none
    rw [hfill]
    simp [CrewCache.get, find?_eq_none_of_not_mem_keys hkeys.2]
  · intro q hq
    show (CrewCache.setAll ⟨[], N⟩ (p :: rest)).get q.1 = some q.2
    rw [hfill]
    simp [CrewCache.get, find?_eq_some_of_nodup hkeys.1 (by simpa using hq)]
  · show (CrewCache.setAll ⟨[], N⟩ (p :: rest)).entries.length = N
    rw [hfill, hlen]
  · intro en k v hle
    by_cases hcap : N ≤ en.length
    · have hcases : en.length = N := le_antisymm hle hcap
      simp only [CrewCache.set, hcap, if_true]
      calc (assocSet en.tail k v).length ≤ en.tail.length + 1 :=
              assocSet_length_le _ _ _
        _ ≤ N := by rw [List.length_tail]; omega
    · simp only [CrewCache.set, hcap, if_false]
      calc (assocSet en k v).length ≤ en.length + 1 := assocSet_length_le _ _ _
        _ ≤ N := by omega

theorem C9_witness :
    (CrewCache.setAll (CrewCache.empty 2)
        [("a", "1"), ("b", "2"), ("c", "3")]).get "a" = none ∧
    (CrewCache.setAll (CrewCache.empty 2)
        [("a", "1"), ("b", "2"), ("c", "3")]).get "b" = some "2" ∧
    (CrewCache.setAll (CrewCache.empty 2)
        [("a", "1"), ("b", "2"), ("c", "3")]).entries.length = 2 := by
  have h := C9_fifo_eviction 2 ("a", "1") [("b", "2"), ("c", "3")]
    (by norm_num) (by decide) (by decide)
  exact ⟨h.1, h.2.1 ("b", "2") (by decide), h.2.2.1⟩

/-- C10: `set` at capacity always evicts the insertion-oldest entry first,
even when the key being written is already present. Overwriting a present,
non-oldest key at capacity therefore shrinks the table to `max_size - 1` and
removes the unrelated oldest key; rewriting the oldest key itself keeps the
table at `max_size` (the key is re-appended at the back). -/
theorem C10_overwrite_at_capacity (e0 : String × String)
    (erest : List (String × String)) (N : Nat) (k v : String)
    (hnd : ((e0 :: erest).map Prod.fst).Nodup)
    (hfull : (e0 :: erest).length = N)
    (hmem : k ∈ (e0 :: erest).map Prod.fst) :
    (k ≠ e0.1 →
      (CrewCache.set ⟨e0 :: erest, N⟩ k v).entries.length = N - 1 ∧
      e0.1 ∉ (CrewCache.set ⟨e0 :: erest, N⟩ k v).entries.map Prod.fst) ∧
    (k = e0.1 → (CrewCache.set ⟨e0 :: erest, N⟩ k v).entries.length = N) := by
  have hkeys : (erest.map Prod.fst).Nodup ∧ e0.1 ∉ erest.map Prod.fst := by
    rw [List.map_cons, List.nodup_cons] at hnd
    exact ⟨hnd.2, hnd.1⟩
  have hset : (CrewCache.set ⟨e0 :: erest, N⟩ k v).entries = assocSet erest k v := by
    simp [CrewCache.set, show N ≤ erest.length + 1 by simpa using hfull.ge]
  constructor
  · intro hk
    have hk_rest : k ∈ erest.map Prod.fst := by
      rw [List.map_cons, List.mem_cons] at hmem
      exact hmem.resolve_left hk
    refine ⟨?_, ?_⟩
    · rw [hset, assocSet_length_of_mem _ hk_rest]
      rw [List.length_cons] at hfull
      omega
    · rw [hset]
      intro hbad
      rcases mem_keys_of_mem_keys_assocSet hbad with h' | h'
      · exact hkeys.2 h'
      · exact hk h'.symm
  · intro hk
    have hk_not : k ∉ erest.map Prod.fst := hk ▸ hkeys.2
    rw [hset, assocSet_of_not_mem _ hk_not, List.length_append]
    rw [List.length_cons] at hfull
    simpa using hfull

theorem C10_witness :
    (CrewCache.set ⟨[("a", "1"), ("b", "2")], 2⟩ "b" "9").entries.length = 1 ∧
    "a" ∉ (CrewCache.set ⟨[("a", "1"), ("b", "2")], 2⟩
        "b" "9").entries.map Prod.fst := by
  have h := (C10_overwrite_at_capacity ("a", "1") [("b", "2")] 2 "b" "9"
    (by decide) (by decide) (by decide)).1 (by decide)
  exact ⟨h.1, h.2⟩

/-- C7: `RateLimiter.can_proceed` first drops timestamps outside the trailing
`period`, then appends the current time and returns true iff the remaining
count is below `max_calls`; afterwards the window holds at most `max_calls`
timestamps, all within the trailing period. (`0 < period` rules out the
degenerate zero-length window; a window that satisfied the length invariant
keeps satisfying it, and the empty initial window satisfies it.) -/
theorem C7_rate_window (rl : RateLimiter) (now : Nat) (hper : 0 < rl.period)
    (hlen : rl.calls.length ≤ rl.max_calls) :
    (rl.can_proceed now).2.calls.length ≤ rl.max_calls ∧
    (∀ t ∈ (rl.can_proceed now).2.calls, now - t < rl.period) ∧
    ((rl.can_proceed now).1 = true ↔
      (rl.calls.filter (fun t => now - t < rl.period)).length < rl.max_calls) ∧
    (rl.can_proceed now).2.calls =
      (if (rl.can_proceed now).1 then
        rl.calls.filter (fun t => now - t < rl.period) ++ [now]
      else rl.calls.filter (fun t => now - t < rl.period)) := by
  have hfl : (rl.calls.filter (fun t => now - t < rl.period)).length
      ≤ rl.calls.length := List.length_filter_le _ _
  have hmem : ∀ t ∈ rl.calls.filter (fun t => now - t < rl.period),
      now - t < rl.period := by
    intro t ht
    have := (List.mem_filter.mp ht).2
    simpa using this
  by_cases hbelow :
      (rl.calls.filter (fun t => now - t < rl.period)).length < rl.max_calls
  · simp only [RateLimiter.can_proceed, hbelow, if_true]
    refine ⟨?_, ?_, ?_, ?_⟩
    · rw [List.length_append, List.length_singleton]
      omega
    · intro t ht
      rcases List.mem_append.mp ht with h | h
      · exact hmem t h
      · rw [List.mem_singleton.mp h]
        simpa using hper
    · simp [hbelow]
    · simp
  · simp only [RateLimiter.can_proceed, hbelow, if_false]
    refine ⟨le_trans hfl hlen, hmem, ?_, ?_⟩
    · simp [hbelow]
    · simp

theorem C7_witness :
    ((RateLimiter.mk 5 60 [0, 10]).can_proceed 20).1 = true ∧
    ((RateLimiter.mk 5 60 [0, 10]).can_proceed 20).2.calls.length ≤ 5 := by
  have h := C7_rate_window ⟨5, 60, [0, 10]⟩ 20 (by norm_num) (by norm_num)
  exact ⟨h.2.2.1.mpr (by decide), h.1⟩

/-- C8: the intent classifier is a pure Lean function of the query text, hence
deterministic; `classify("What movies are trending this week?")` takes the
trending branch with no required capabilities, and
`classify("I want detailed information about Star Wars: The Empire Strikes
Back")` takes the detail-seeking branch (via the specific-title override),
which the code represents as query type `"complex"` with required agents
`["details_agent"]` — the capability set contains the details capability. -/
theorem C8_classifier :
    classify_query_intent "What movies are trending this week?"
      = ("trending", []) ∧
    classify_query_intent
        "I want detailed information about Star Wars: The Empire Strikes Back"
      = ("complex", ["details_agent"]) ∧
    "details_agent" ∈ (classify_query_intent
        "I want detailed information about Star Wars: The Empire Strikes Back").2 := by
  refine ⟨by decide, by decide, by decide⟩

/-- C2, counterexample: a short result from the recommendation specialist is
never re-dispatched — `process_film_buff_query` retries only the trends and
information agents. With the manager analysis mentioning "recommendations",
the specialist returning a 9-character result and the retry handler ready to
return a 60-character result (or even to raise), the pipeline returns the
short original, so no retry to the recommendation capability occurred. -/
theorem C2_counterexample :
    (process_film_buff_query (Except.ok "Use recommendations")
        (fun _ => Except.ok "too short")
        (fun _ => Except.ok
          "aaaaaaaaaaaaaaaaaaaaaaaaaaaaaaaaaaaaaaaaaaaaaaaaaaaaaaaaaaaa")
        (CrewCache.empty 100) "Recommend a movie").1 = "too short" ∧
    (process_film_buff_query (Except.ok "Use recommendations")
        (fun _ => Except.ok "too short")
        (fun _ => Except.error "boom")
        (CrewCache.empty 100) "Recommend a movie").1 = "too short" ∧
    (trimStr "too short").length < 50 ∧
    50 < (trimStr
      "aaaaaaaaaaaaaaaaaaaaaaaaaaaaaaaaaaaaaaaaaaaaaaaaaaaaaaaaaaaa").length := by
  refine ⟨by decide, by decide, by decide, by decide⟩

/-- C2, amended: the single re-dispatch with the stricter template applies to
the trends and information capabilities only; a below-threshold recommendation
result is returned unchanged and the retry dispatcher is never consulted. -/
theorem C2_retry_capabilities (s r' : String)
    (retry : TargetAgent → Except String String) (t : TargetAgent)
    (hshort : (trimStr s).length < 50) :
    (t ≠ .recommendation_agent → retry t = .ok r' →
      applyRetryPolicy t s retry
        = .ok (if 50 < (trimStr r').length then r' else s)) ∧
    (∀ retry' : TargetAgent → Except String String,
      applyRetryPolicy .recommendation_agent s retry' = .ok s) := by
  constructor
  · intro ht hr
    cases t with
    | information_agent =>
      simp only [applyRetryPolicy, hshort, if_true, hr, Except.bind]
      rfl
    | trends_agent =>
      simp only [applyRetryPolicy, hshort, if_true, hr, Except.bind]
      rfl
    | recommendation_agent => exact absurd rfl ht
  · intro retry'
    simp [applyRetryPolicy, hshort, pure, Except.pure]

theorem C2_witness :
    applyRetryPolicy .trends_agent "short" (fun _ => Except.ok
        "bbbbbbbbbbbbbbbbbbbbbbbbbbbbbbbbbbbbbbbbbbbbbbbbbbbbbbbbbbbb")
      = .ok "bbbbbbbbbbbbbbbbbbbbbbbbbbbbbbbbbbbbbbbbbbbbbbbbbbbbbbbbbbbb" ∧
    applyRetryPolicy .recommendation_agent "short" (fun _ => Except.ok
        "bbbbbbbbbbbbbbbbbbbbbbbbbbbbbbbbbbbbbbbbbbbbbbbbbbbbbbbbbbbb")
      = .ok "short" := by
  have h := C2_retry_capabilities "short"
    "bbbbbbbbbbbbbbbbbbbbbbbbbbbbbbbbbbbbbbbbbbbbbbbbbbbbbbbbbbbb"
    (fun _ => Except.ok
      "bbbbbbbbbbbbbbbbbbbbbbbbbbbbbbbbbbbbbbbbbbbbbbbbbbbbbbbbbbbb")
    .trends_agent (by decide)
  refine ⟨(h.1 (by decide) rfl).trans (by rw [if_pos (by decide)]), h.2 _⟩

/-- C5, counterexample: the claim says the retry result is stored iff it
passes the minimum-length check (trimmed length not shorter than 50). A retry
result of exactly 50 characters passes that check, yet the code adopts the
retry only when the trimmed length strictly exceeds 50 — so the original is
kept. -/
theorem C5_counterexample :
    applyRetryPolicy .trends_agent "0123456789" (fun _ => Except.ok
        "cccccccccccccccccccccccccccccccccccccccccccccccccc")
      = .ok "0123456789" ∧
    (trimStr "0123456789").length < 50 ∧
    ¬ (trimStr "cccccccccccccccccccccccccccccccccccccccccccccccccc").length < 50 := by
  refine ⟨rfl, by decide, by decide⟩

/-- C5, amended: when a retry is performed (short first result, trends or
information capability), the returned value is the retry's result iff its
trimmed length strictly exceeds 50 characters; otherwise — including a retry
of exactly 50 characters — the original result is kept; and the outcome is
always one of those two results (a single retry, no loop). -/
theorem C5_retry_never_regresses (t : TargetAgent) (s r' : String)
    (retry : TargetAgent → Except String String)
    (hshort : (trimStr s).length < 50) (ht : t ≠ .recommendation_agent)
    (hr : retry t = .ok r') :
    applyRetryPolicy t s retry
      = .ok (if 50 < (trimStr r').length then r' else s) ∧
    ((trimStr r').length ≤ 50 → applyRetryPolicy t s retry = .ok s) ∧
    (applyRetryPolicy t s retry = .ok r' ∨ applyRetryPolicy t s retry = .ok s) := by
  have hmain : applyRetryPolicy t s retry
      = .ok (if 50 < (trimStr r').length then r' else s) := by
    cases t with
    | information_agent =>
      simp only [applyRetryPolicy, hshort, if_true, hr, Except.bind]
      rfl
    | trends_agent =>
      simp only [applyRetryPolicy, hshort, if_true, hr, Except.bind]
      rfl
    | recommendation_agent => exact absurd rfl ht
  refine ⟨hmain, ?_, ?_⟩
  · intro hle
    rw [hmain, if_neg (by omega)]
  · rw [hmain]
    by_cases h50 : 50 < (trimStr r').length
    · exact Or.inl (by rw [if_pos h50])
    · exact Or.inr (by rw [if_neg h50])

theorem C5_witness :
    applyRetryPolicy .trends_agent "tiny" (fun _ => Except.ok
        "cccccccccccccccccccccccccccccccccccccccccccccccccc")
      = .ok "tiny" := by
  have h := C5_retry_never_regresses .trends_agent "tiny"
    "cccccccccccccccccccccccccccccccccccccccccccccccccc"
    (fun _ => Except.ok "cccccccccccccccccccccccccccccccccccccccccccccccccc")
    (by decide) (by decide) rfl
  exact h.2.1 (by decide)

/-- C4: the pipeline never throws past its outer boundary. On a cache miss,
if any step of the guarded body raises (manager analysis, specialist
dispatch, or the retry — all summarized by `processBody` evaluating to an
error), `process_film_buff_query` returns the error template — which embeds
the original query and the error text between fixed literal segments — and
the cache is returned unchanged; a subsequent identical query therefore
re-runs the pipeline against the handlers (third conjunct) instead of
returning a stored error text. -/
theorem C4_error_boundary (manager : Except String String)
    (dispatch retry : TargetAgent → Except String String)
    (cache : CrewCache) (query e : String)
    (hmiss : cache.get query = none)
    (herr : processBody manager dispatch retry query = .error e) :
    process_film_buff_query manager dispatch retry cache query
      = (errorResponse query e, cache) ∧
    errorResponse query e
      = errorResponseHead ++ query ++ errorResponseMid ++ e ++ errorResponseTail ∧
    (∀ (manager' : Except String String)
        (dispatch' retry' : TargetAgent → Except String String) (r : String),
      processBody manager' dispatch' retry' query = .ok r →
      process_film_buff_query manager' dispatch' retry' cache query
        = (r, cache.set query r)) := by
  refine ⟨?_, rfl, ?_⟩
  · simp [process_film_buff_query, hmiss, herr]
  · intro manager' dispatch' retry' r hok
    simp [process_film_buff_query, hmiss, hok]

theorem C4_witness :
    process_film_buff_query (Except.error "connection failed")
        (fun _ => Except.ok "x") (fun _ => Except.ok "x")
        (CrewCache.empty 100) "Tell me about Interstellar"
      = (errorResponse "Tell me about Interstellar" "connection failed",
         CrewCache.empty 100) ∧
    errorResponse "Tell me about Interstellar" "connection failed"
      = errorResponseHead ++ "Tell me about Interstellar" ++ errorResponseMid
          ++ "connection failed" ++ errorResponseTail := by
  have h := C4_error_boundary (Except.error "connection failed")
    (fun _ => Except.ok "x") (fun _ => Except.ok "x")
    (CrewCache.empty 100) "Tell me about Interstellar" "connection failed"
    rfl rfl
  exact ⟨h.1, h.2.1⟩

/-- C3, counterexample: with two required capabilities and a delegation plan
containing a section only for the first, the extraction loop builds a single
task and the fallback (guarded by `if not tasks`) does not fire — the
capability whose extraction failed gets no task at all, not a
default-instruction task as the claim states. -/
theorem C3_counterexample :
    extract_instructions "PLANO:\nDETAILS AGENT: find the film"
        "details_agent" = some "find the film" ∧
    extract_instructions "PLANO:\nDETAILS AGENT: find the film"
        "recommendation_agent" = none ∧
    buildTasks "PLANO:\nDETAILS AGENT: find the film"
        ["details_agent", "recommendation_agent"] "q"
      = [("details_agent", "find the film")] := by
  refine ⟨by decide, by decide, by decide⟩

/-- C3, amended: the default instruction `"Forneça informações sobre
'<query>'"` is substituted for the required capabilities only when extraction
fails for every one of them (the `tasks` list ends up empty); when extraction
succeeds for at least one capability, each capability whose section is
missing is silently dropped — it gets no task at all. -/
theorem C3_extraction_fallback (plan query : String) (required : List String) :
    ((∀ a ∈ required, extract_instructions plan a = none) →
      buildTasks plan required query
        = required.map
            (fun a => (a, truncateInstructions (defaultInstruction query)))) ∧
    (∀ b ∈ required, extract_instructions plan b = none →
      (∃ a ∈ required, extract_instructions plan a ≠ none) →
      ∀ ins, (b, ins) ∉ buildTasks plan required query) := by
  constructor
  · intro hall
    have hnil : required.filterMap (fun agent_name =>
        (extract_instructions plan agent_name).map
          (fun instructions => (agent_name, truncateInstructions instructions)))
        = [] := by
      rw [List.filterMap_eq_nil_iff]
      intro a ha
      rw [hall a ha]
      rfl
    simp [buildTasks, hnil]
  · intro b hb hbnone hex ins hmem
    have hne : required.filterMap (fun agent_name =>
        (extract_instructions plan agent_name).map
          (fun instructions => (agent_name, truncateInstructions instructions)))
        ≠ [] := by
      rw [Ne, List.filterMap_eq_nil_iff]
      intro hall
      obtain ⟨a, ha, hane⟩ := hex
      have := hall a ha
      rcases hcase : extract_instructions plan a with _ | w
      · exact hane hcase
      · rw [hcase] at this
        simp at this
    simp only [buildTasks, List.isEmpty_iff, if_neg hne] at hmem
    obtain ⟨a, ha, hsome⟩ := List.mem_filterMap.mp hmem
    rcases hcase : extract_instructions plan a with _ | w
    · rw [hcase] at hsome
      simp at hsome
    · rw [hcase] at hsome
      simp only [Option.map_some', Option.some.injEq, Prod.mk.injEq] at hsome
      exact absurd (hsome.1 ▸ hcase) (by rw [hbnone]; simp)

theorem C3_witness :
    buildTasks "no capability headers here" ["details_agent"] "q"
      = [("details_agent", "Forneça informações sobre 'q'")] := by
  have h := (C3_extraction_fallback "no capability headers here" "q"
    ["details_agent"]).1 (by decide)
  exact h.trans (by decide)
